import Mathlib

set_option maxRecDepth 8000

/- Shallow embedding of the polygon-merge engine of `geometry/PolygonMerge.hpp`,
   together with the numeric predicates of `math/MathUtility.hpp`.  The property
   type is instantiated at `ℕ`, the integral coordinate type at `ℤ`, and the
   floating coordinate/float_t type at `ℚ` with an explicit comparison tolerance
   (the C++ default tolerance is the machine epsilon of the element type). -/

namespace PolygonMerge

/-- 2D point with integer coordinates (`Point2D<num_type>` for integral `num_type`). -/
abbrev PtI := ℤ × ℤ

/-- 2D point with rational coordinates, modelling the floating `num_type` / `float_t`
instantiation. -/
abbrev PtF := ℚ × ℚ

/-- `math::isPositive` (MathUtility.hpp line 53): `num > 0`. -/
def isPositive (num : ℚ) : Bool := 0 < num

/-- `math::LT` floating specialization (MathUtility.hpp lines 129-132):
`num2 - num1 > tolerance`. -/
def mathLT (num1 num2 tolerance : ℚ) : Bool := num2 - num1 > tolerance

/-- `math::GT` floating specialization (MathUtility.hpp lines 116-119):
`num1 - num2 > tolerance`. -/
def mathGT (num1 num2 tolerance : ℚ) : Bool := num1 - num2 > tolerance

/-- The machine epsilon of an IEEE double (`std::numeric_limits<double>::epsilon()`),
the default tolerance of the floating comparisons. -/
def epsF : ℚ := 1 / 2 ^ 52

/-- Modelled from the spec: the axis-aligned box `Box2D<num_type>` of the geometry
primitives that live outside `src/`. -/
structure Box (α : Type) where
  lx : α
  ly : α
  hx : α
  hy : α
deriving DecidableEq

/-- Modelled from the spec: `Box2D::Length()`, the x-extent of a box. -/
def Box.Length {α : Type} [Sub α] (b : Box α) : α := b.hx - b.lx

/-- Modelled from the spec: `Box2D::Width()`, the y-extent of a box. -/
def Box.Width {α : Type} [Sub α] (b : Box α) : α := b.hy - b.ly

/-- Modelled from the spec: `Box2D::Area()`, x-extent times y-extent. -/
def Box.Area {α : Type} [Sub α] [Mul α] (b : Box α) : α := (b.hx - b.lx) * (b.hy - b.ly)

/-- Modelled from the spec: `Extent` of a point sequence, the bounding box of its
points; on an empty sequence `Box2D` stays in its default invalid state (min above
max), modelled by the degenerate box `⟨1, 1, 0, 0⟩`. -/
def extent {α : Type} [LinearOrder α] [Zero α] [One α] : List (α × α) → Box α
  | [] => ⟨1, 1, 0, 0⟩
  | p :: ps =>
    ps.foldl (fun b q => ⟨min b.lx q.1, min b.ly q.2, max b.hx q.1, max b.hy q.2⟩)
      ⟨p.1, p.2, p.1, p.2⟩

/-- Twice the signed area of a ring by the shoelace formula (positive on
counter-clockwise rings); the underlying form of the external area/orientation
primitives that live outside `src/`. -/
def shoelace2 {α : Type} [CommRing α] (l : List (α × α)) : α :=
  match l with
  | [] => 0
  | p :: ps =>
    ((p :: ps).zip (ps ++ [p])).foldl (fun s e => s + (e.1.1 * e.2.2 - e.2.1 * e.1.2)) 0

/-- Modelled from the spec: the external `boost::polygon::area` on an integer-coordinate
ring, the absolute area `|shoelace| / 2` as a `float_t` value. -/
def polyAreaI (l : List PtI) : ℚ := ((|shoelace2 l| : ℤ) : ℚ) / 2

/-- Modelled from the spec: `Polygon2D::isCCW` (geometry primitives outside `src/`);
a ring is counter-clockwise when its signed shoelace area is non-negative (degenerate
rings are orientation-neutral and are treated as already counter-clockwise). -/
def isCCW (l : List PtI) : Bool := 0 ≤ shoelace2 l

/-- `PolygonWithProp<property_type, num_type>` at `property_type = ℕ` and integral
`num_type` (coordinates in `ℤ`): a property tag, the outer ring `solid`, and the
list of hole rings (PolygonMerge.hpp lines 26-71). -/
structure PolygonData where
  property : ℕ
  solid : List PtI
  holes : List (List PtI)
deriving DecidableEq

/-- `PolygonWithProp::RemoveTinyHoles` (PolygonMerge.hpp lines 62-70): erase every hole
with `math::LT<float_t>(boost::polygon::area(hole), area)`, at tolerance `tol`. -/
def RemoveTinyHoles (tol : ℚ) (area : ℚ) (pd : PolygonData) : PolygonData :=
  { pd with holes := pd.holes.filter (fun h => !(mathLT (polyAreaI h) area tol)) }

/-- `PolygonWithProp::Normalize` (PolygonMerge.hpp lines 49-55): reverse `solid` when it
is not counter-clockwise, and reverse every hole that is counter-clockwise. -/
def Normalize (pd : PolygonData) : PolygonData :=
  { pd with
    solid := if isCCW pd.solid then pd.solid else pd.solid.reverse
    holes := pd.holes.map (fun h => if isCCW h then h.reverse else h) }

/-- `PolygonMerger::MergeSettings` (PolygonMerge.hpp lines 165-175), field names and
defaults as in the source. -/
structure MergeSettings where
  cleanPolyonPoints : Bool := false
  checkPropertyDiff : Bool := false
  ignoreTinySolid : Bool := false
  ignoreTinyHoles : Bool := false
  tinySolidArea : ℚ := 0
  tinyHolesArea : ℚ := 0
  cleanPointDist : ℚ := 0
  mergeThreashold : ℕ := 1024
deriving DecidableEq

/-- `PolygonMerger::FilterOutTinyHoles` (PolygonMerge.hpp lines 422-429): when
`ignoreTinyHoles` is set and `tinyHolesArea` is positive, remove the tiny holes of
every polygon in the list. -/
def FilterOutTinyHoles (tol : ℚ) (s : MergeSettings) (polygons : List PolygonData) :
    List PolygonData :=
  if s.ignoreTinyHoles && isPositive s.tinyHolesArea then
    polygons.map (RemoveTinyHoles tol s.tinyHolesArea)
  else polygons

/-- Association-list lookup modelling `std::unordered_map`: the value of the first
entry with the given key (`count`/`at`); keys are never duplicated because insertion
skips present keys. -/
def amLookup {P : Type} [DecidableEq P] : List (P × ℕ) → P → Option ℕ
  | [], _ => none
  | e :: m, k => if e.1 = k then some e.2 else amLookup m k

/-- `std::unordered_map::insert`: inserts `(k, v)` only when `k` is absent; it never
overwrites an existing entry. -/
def amInsert {P : Type} [DecidableEq P] (m : List (P × ℕ)) (k : P) (v : ℕ) :
    List (P × ℕ) :=
  if (amLookup m k).isSome then m else m ++ [(k, v)]

/-- The property-map lookup (`m_propertyMap`, `PropertyMap` of PolygonMerge.hpp). -/
def pmLookup (m : List (ℕ × ℕ)) (k : ℕ) : Option ℕ := amLookup m k

/-- The property-map insertion (`m_propertyMap.insert`). -/
def pmInsert (m : List (ℕ × ℕ)) (k v : ℕ) : List (ℕ × ℕ) := amInsert m k v

/-- Property resolution inside `MergePolygons` (PolygonMerge.hpp lines 465-466):
`m_propertyMap.count(p) ? m_propertyMap.at(p) : p`. -/
def resolveProperty (m : List (ℕ × ℕ)) (p : ℕ) : ℕ := (pmLookup m p).getD p

/-- The distinct pieces of work dispatched by `PreProcess` and `PostProcess`. -/
inductive MergeAction where
  | cleanPolygons
  | buildTaskTree
  | filterOutTinyArea
deriving DecidableEq

/-- `PolygonMerger::PreProcess` (PolygonMerge.hpp lines 323-331) as its action trace:
clean points only when `cleanPolyonPoints` is set and `cleanPointDist` is positive,
then build the task tree. -/
def PreProcess (s : MergeSettings) : List MergeAction :=
  (if s.cleanPolyonPoints && isPositive s.cleanPointDist then [MergeAction.cleanPolygons]
   else []) ++ [MergeAction.buildTaskTree]

/-- `PolygonMerger::PostProcess` (PolygonMerge.hpp lines 376-381) as its action trace:
clean points when `cleanPointDist` converts to `true` (is nonzero) and is positive,
then filter tiny solids when `ignoreTinySolid` is set and `tinySolidArea` is positive. -/
def PostProcess (s : MergeSettings) : List MergeAction :=
  (if (decide (s.cleanPointDist ≠ 0)) && isPositive s.cleanPointDist then
    [MergeAction.cleanPolygons]
   else []) ++
  (if s.ignoreTinySolid && isPositive s.tinySolidArea then [MergeAction.filterOutTinyArea]
   else [])

/-- `PtNode` of `makePolygonData` (PolygonMerge.hpp line 524): a node of the circular
doubly-linked index list. -/
structure PtNode where
  prev : ℕ
  next : ℕ
deriving DecidableEq, Inhabited

/-- Write the `next` field of `nodeList[i]` (`nodeList[i].next = v`). -/
def setNext (nl : Array PtNode) (i v : ℕ) : Array PtNode :=
  nl.setD i { nl.getD i default with next := v }

/-- Write the `prev` field of `nodeList[i]` (`nodeList[i].prev = v`). -/
def setPrev (nl : Array PtNode) (i v : ℕ) : Array PtNode :=
  nl.setD i { nl.getD i default with prev := v }

/-- The ring-collection loop of `makePolygonData` (PolygonMerge.hpp lines 541-545):
`while(start != nodeList[index].next) { polygon << in[index]; index = nodeList[index].next; }`
with explicit fuel; a terminating C++ execution visits each node at most once, so fuel
`arr.size` is enough there. -/
def collectRing {P : Type} [Inhabited P] (arr : Array P) (nl : Array PtNode) (start : ℕ) :
    ℕ → ℕ → List P
  | 0, _ => []
  | fuel + 1, index =>
    if start = (nl.getD index default).next then []
    else arr.getD index default :: collectRing arr nl start fuel (nl.getD index default).next

/-- The outer-ring collection loop of `makePolygonData` (PolygonMerge.hpp lines 565-571):
like `collectRing` but with a final `solid << in[index]` after the loop exits. -/
def collectSolid {P : Type} [Inhabited P] (arr : Array P) (nl : Array PtNode) (start : ℕ) :
    ℕ → ℕ → List P
  | 0, index => [arr.getD index default]
  | fuel + 1, index =>
    if start = (nl.getD index default).next then [arr.getD index default]
    else arr.getD index default :: collectSolid arr nl start fuel (nl.getD index default).next

/-- The loop state of `makePolygonData`: the linked index list, the point-index map
(`detail::Point2DIndexMap`, an insert-if-absent map from point to first index), and the
holes accepted so far. -/
structure MpdState (P : Type) where
  nodeList : Array PtNode
  ptMap : List (P × ℕ)
  holes : List (List P)

/-- One iteration of the splice loop of `makePolygonData` (PolygonMerge.hpp lines
532-562), parameterized by the hole-acceptance test `accept` (the `if constexpr`
branch on `num_type`). -/
def mpdStep {P : Type} [DecidableEq P] [Inhabited P] (accept : List P → Bool)
    (arr : Array P) (st : MpdState P) (i : ℕ) : MpdState P :=
  let pt := arr.getD i default
  match amLookup st.ptMap pt with
  | some prev =>
    let curr := i
    let nxt := (st.nodeList.getD curr default).next
    let nl1 := setNext st.nodeList curr prev
    let ring := collectRing arr nl1 prev arr.size prev
    let holes' := if accept ring then st.holes ++ [ring] else st.holes
    let pp := (nl1.getD prev default).prev
    let nl2 := setNext nl1 pp curr
    let nl3 := setPrev nl2 curr pp
    let nl4 := setNext nl3 curr nxt
    { nodeList := nl4, ptMap := amInsert st.ptMap pt i, holes := holes' }
  | none => { st with ptMap := amInsert st.ptMap pt i }

/-- `PolygonMerger::makePolygonData` (PolygonMerge.hpp lines 515-575), generic in the
point type and in the hole-acceptance test: drop the duplicated closing point, build the
circular linked list, run the splice loop over all indices, then collect the outer ring
starting from the last index.  Returns (hole list, outer ring). -/
def makePolygonDataCore {P : Type} [DecidableEq P] [Inhabited P] (accept : List P → Bool)
    (inp0 : List P) : List (List P) × List P :=
  let inp := if inp0 ≠ [] ∧ inp0.head? = inp0.getLast? then inp0.dropLast else inp0
  let size := inp.length
  let arr := inp.toArray
  let nl0 : Array PtNode :=
    Array.ofFn (fun i : Fin size => ⟨(i.val + size - 1) % size, (i.val + 1) % size⟩)
  let fin := (List.range size).foldl (fun st i => mpdStep accept arr st i)
    { nodeList := nl0, ptMap := [], holes := [] }
  (fin.holes, collectSolid arr fin.nodeList (size - 1) size (size - 1))

/-- The integer-coordinate hole acceptance of `makePolygonData` (PolygonMerge.hpp lines
547-549): `bbox.Length() > 1 && bbox.Width() > 1`. -/
def acceptHoleI (ring : List PtI) : Bool :=
  let bbox := extent ring
  decide (1 < bbox.Length) && decide (1 < bbox.Width)

/-- The floating-coordinate hole acceptance of `makePolygonData` (PolygonMerge.hpp lines
551-553): `math::GT<num_type>(bbox.Area(), 0)` at tolerance `tol`. -/
def acceptHoleF (tol : ℚ) (ring : List PtF) : Bool :=
  mathGT (Box.Area (extent ring)) 0 tol

/-- `makePolygonData` at integral `num_type` (`ℤ` coordinates). -/
def makePolygonData (inp : List PtI) (prop : ℕ) : PolygonData :=
  let r := makePolygonDataCore acceptHoleI inp
  { property := prop, solid := r.2, holes := r.1 }

/-- Every candidate hole ring spliced out by the `makePolygonData` loop, before the
degeneracy test (the same traversal with an always-true acceptance). -/
def mpdCandidates {P : Type} [DecidableEq P] [Inhabited P] (inp : List P) : List (List P) :=
  (makePolygonDataCore (fun _ => true) inp).1

/-- The merger fields written by `MergePolygons`: the property map `m_propertyMap` and
the conflict records `m_propDiffAreas` (a conflict record pairs a property set, kept in
its `std::set` iteration order, with the polylines outlining the region). -/
structure MergerState where
  propertyMap : List (ℕ × ℕ)
  propDiffAreas : List (List ℕ × List (List PtI))
deriving DecidableEq

/-- One `property_merge::insert` call issued by `MergePolygons` (PolygonMerge.hpp lines
467-469): the point sequence, the resolved property, and the hole flag. -/
structure MergeInsert where
  points : List PtI
  prop : ℕ
  hole : Bool
deriving DecidableEq

/-- The per-result loop body of `MergePolygons` (PolygonMerge.hpp lines 477-502).
`properties` is the `std::set` key in ascending iteration order (first element first);
`outs` is the polyline list obtained from the result polygon set. -/
def processResult (checkPropertyDiff : Bool) (st : MergerState)
    (properties : List ℕ) (outs : List (List PtI)) : MergerState × List PolygonData :=
  let step :=
    if 1 < properties.length then
      if checkPropertyDiff then
        ({ st with propDiffAreas := st.propDiffAreas ++ [(properties, outs)] },
          ([] : List (List PtI)))
      else
        let prop := properties.headD 0
        ({ st with propertyMap :=
            properties.tail.foldl (fun m pi => pmInsert m pi prop) st.propertyMap },
          outs)
    else (st, outs)
  (step.1, step.2.map (fun o => makePolygonData o (properties.headD 0)))

/-- `PolygonMerger::MergePolygons` (PolygonMerge.hpp lines 458-503).  The external
`boost::polygon::property_merge` is modelled by the argument `primMerge`, mapping the
inserted tuples to the `{property set → polyline set}` results in map-iteration order.
Returns the new merger state, the replaced polygon list, and the tuples handed to the
boolean primitive. -/
def MergePolygons (checkPropertyDiff : Bool)
    (primMerge : List MergeInsert → List (List ℕ × List (List PtI)))
    (st : MergerState) (polygons : List PolygonData) :
    MergerState × List PolygonData × List MergeInsert :=
  if polygons.length ≤ 1 then (st, polygons, []) else
  let inserts := polygons.flatMap (fun pd =>
    let prop := resolveProperty st.propertyMap pd.property
    { points := pd.solid, prop := prop, hole := false } ::
      pd.holes.map (fun h => { points := h, prop := prop, hole := true }))
  let results := primMerge inserts
  let folded := results.foldl (fun acc r =>
    let pr := processResult checkPropertyDiff acc.1 r.1 r.2
    (pr.1, acc.2 ++ pr.2)) (st, ([] : List PolygonData))
  (folded.1, folded.2, inserts)

/-- Modelled from the spec: box union (`Box2D::operator|=`); `none` stands for the
default invalid box. -/
def boxUnion (b : Option (Box ℤ)) (c : Box ℤ) : Option (Box ℤ) :=
  match b with
  | none => some c
  | some b => some ⟨min b.lx c.lx, min b.ly c.ly, max b.hx c.hx, max b.hy c.hy⟩

/-- `PolygonWithProp::BBox` (PolygonMerge.hpp lines 40-47): the union of the solid's
extent with every hole's extent (`Extent` and box union modelled from the spec). -/
def pdBBox (pd : PolygonData) : Option (Box ℤ) :=
  pd.holes.foldl (fun b h => boxUnion b (extent h)) (boxUnion none (extent pd.solid))

/-- The merger fields touched by `AddObject`/`AddPolygonData`: the aggregate bounding box
`m_bbox` (`none` = invalid) and the pending input list `m_datas`. -/
structure AddState where
  bbox : Option (Box ℤ)
  datas : List PolygonData
deriving DecidableEq

/-- `PolygonMerger::AddPolygonData` (PolygonMerge.hpp lines 505-513): normalize the
record, grow `m_bbox`, append the record to `m_datas` and return it.  The source
performs no validation of any kind here. -/
def AddPolygonData (st : AddState) (pd : PolygonData) : AddState × PolygonData :=
  let pd := Normalize pd
  let bbox := match pdBBox pd with
    | none => st.bbox
    | some b => boxUnion st.bbox b
  (⟨bbox, st.datas ++ [pd]⟩, pd)

/-- `PolygonMerger::AddObject(property, polygon)` (PolygonMerge.hpp lines 274-282). -/
def AddObject (st : AddState) (property : ℕ) (polygon : List PtI) : AddState × PolygonData :=
  AddPolygonData st { property := property, solid := polygon, holes := [] }

/-- Modelled from the spec: `DistanceSq`, the squared Euclidean distance (geometry
primitives outside `src/`). -/
def distSq (a b : PtF) : ℚ := (a.1 - b.1) ^ 2 + (a.2 - b.2) ^ 2

/-- The simplify loop of `PolygonMergeUtils::CleanPolygon` (PolygonMerge.hpp lines
613-620): state `(in, out)`; while the sizes differ, set `in := out` and
`out := simplify in`.  Fuel-indexed; `out.length + 1` steps suffice whenever `simplify`
never grows its input. -/
def cleanLoop (simplify : List PtF → List PtF) : ℕ → List PtF → List PtF → List PtF
  | 0, _, out => out
  | fuel + 1, inp, out =>
    if out.length = inp.length then out else cleanLoop simplify fuel out (simplify out)

/-- `PolygonMergeUtils::CleanPolygon` (PolygonMerge.hpp lines 610-623), with the external
Douglas-Peucker primitive `boost::geometry::simplify` supplied as `simplify`: iterate
until the point count stops decreasing; drop the trailing point when the squared
first-to-last distance exceeds `dist * dist`; install the result only when it still has
at least 3 points. -/
def CleanPolygon (simplify : List PtF → List PtF) (dist : ℚ) (polygon : List PtF) :
    List PtF :=
  let out := cleanLoop simplify (polygon.length + 1) [] polygon
  let out2 := if distSq (out.headD (0, 0)) (out.getLastD (0, 0)) > dist * dist
    then out.dropLast else out
  if 3 ≤ out2.length then out2 else polygon

/-- A node of the merge task tree (`MergeTaskNode`), labelled with the id of the task
scheduled for it; `objs` mirrors the node-local object list. -/
inductive TaskNode where
  | mk (nid : ℕ) (objs : List PolygonData) (children : List TaskNode)

/-- The task id of a node. -/
def TaskNode.nid : TaskNode → ℕ
  | .mk i _ _ => i

/-- The children of a node (`MergeTaskNode::GetChildren`). -/
def TaskNode.children : TaskNode → List TaskNode
  | .mk _ _ cs => cs

/-- The event trace of the sequential `PolygonMerger::MergeRegion` (PolygonMerge.hpp
lines 333-374): recurse into every child first, then perform this node's own merge work
(one event carrying the node's id). -/
def mergeRegionTrace : TaskNode → List ℕ
  | .mk i _ cs => (cs.attach.map (fun c => mergeRegionTrace c.1)).flatten ++ [i]
decreasing_by
  have := List.sizeOf_lt_of_mem c.2
  simp; omega

/-- `PolygonMergeRunner::ScheduleSubTasks` (PolygonMerge.hpp lines 647-657): for every
child emplace its task, add the dependency edge `childTask ≺ successor`
(`task->Precede(successor)`), and recurse into the child with its own task as the new
successor.  Edges are (predecessor id, successor id) pairs. -/
def scheduleSubTasks : TaskNode → ℕ → List (ℕ × ℕ)
  | .mk _ _ cs, succ =>
    (cs.attach.map (fun c => (c.1.nid, succ) :: scheduleSubTasks c.1 c.1.nid)).flatten
decreasing_by
  have := List.sizeOf_lt_of_mem c.2
  simp; omega

/-- `PolygonMergeRunner::ScheduleTasks` (PolygonMerge.hpp lines 639-645): emplace the
root task, then schedule the subtasks below it. -/
def scheduleTasks (root : TaskNode) : List (ℕ × ℕ) := scheduleSubTasks root root.nid

/-- All nodes of a task tree: the node itself and every descendant. -/
def allNodes : TaskNode → List TaskNode
  | .mk i objs cs => .mk i objs cs :: (cs.attach.map (fun c => allNodes c.1)).flatten
decreasing_by
  have := List.sizeOf_lt_of_mem c.2
  simp; omega

/-- C10: the pre-merge point cleanup in `PreProcess` runs only when `cleanPolyonPoints`
is true and `cleanPointDist` is positive, whereas the post-merge cleanup in `PostProcess`
runs whenever `cleanPointDist` is nonzero and positive regardless of the
`cleanPolyonPoints` flag; hence a merge configured with `cleanPolyonPoints = false` and
`cleanPointDist > 0` cleans polygons after merging but not before. -/
theorem preProcess_postProcess_clean_gates (s : MergeSettings) :
    (MergeAction.cleanPolygons ∈ PreProcess s ↔
      (s.cleanPolyonPoints = true ∧ 0 < s.cleanPointDist)) ∧
    (MergeAction.cleanPolygons ∈ PostProcess s ↔
      (s.cleanPointDist ≠ 0 ∧ 0 < s.cleanPointDist)) ∧
    (s.cleanPolyonPoints = false → 0 < s.cleanPointDist →
      MergeAction.cleanPolygons ∈ PostProcess s ∧
      MergeAction.cleanPolygons ∉ PreProcess s) := by
  refine ⟨?_, ?_, ?_⟩
  · unfold PreProcess isPositive
    by_cases hb : s.cleanPolyonPoints <;> by_cases hd : (0 : ℚ) < s.cleanPointDist <;>
      simp [hb, hd]
  · unfold PostProcess isPositive
    by_cases hz : s.cleanPointDist ≠ 0 <;> by_cases hd : (0 : ℚ) < s.cleanPointDist <;>
      by_cases ht : s.ignoreTinySolid && isPositive s.tinySolidArea <;>
      simp [hz, hd, ht]
  · intro hb hd
    constructor
    · unfold PostProcess isPositive
      have hz : s.cleanPointDist ≠ 0 := ne_of_gt hd
      simp [hz, hd]
    · unfold PreProcess isPositive
      simp [hb]

/-- Witness for C10 at a concrete settings record with `cleanPolyonPoints = false` and
`cleanPointDist = 1`. -/
theorem preProcess_postProcess_clean_gates_witness :
    MergeAction.cleanPolygons ∈ PostProcess ⟨false, false, false, false, 0, 0, 1, 1024⟩ ∧
    MergeAction.cleanPolygons ∉ PreProcess ⟨false, false, false, false, 0, 0, 1, 1024⟩ :=
  (preProcess_postProcess_clean_gates ⟨false, false, false, false, 0, 0, 1, 1024⟩).2.2
    rfl (by norm_num)

/-- C4: property resolution in `MergePolygons` returns the map image `m(p)` when `p` is
present in the property map and `p` itself otherwise, and never chases redirects
transitively (one-level lookup only). -/
theorem resolveProperty_one_level (m : List (ℕ × ℕ)) (p : ℕ) :
    resolveProperty m p = (pmLookup m p).getD p ∧
    (pmLookup m p = none → resolveProperty m p = p) ∧
    (∀ q, pmLookup m p = some q → resolveProperty m p = q) ∧
    (∀ q r, pmLookup m p = some q → pmLookup m q = some r → resolveProperty m p = q) := by
  refine ⟨rfl, ?_, ?_, ?_⟩
  · intro h; simp [resolveProperty, h]
  · intro q h; simp [resolveProperty, h]
  · intro q r h _; simp [resolveProperty, h]

/-- Witness for C4: with map `{1 ↦ 2, 2 ↦ 3}`, resolving 1 yields 2 (the one-level
image), not 3. -/
theorem resolveProperty_one_level_witness : resolveProperty [(1, 2), (2, 3)] 1 = 2 :=
  (resolveProperty_one_level [(1, 2), (2, 3)] 1).2.2.2 2 3 (by decide) (by decide)

/-- C6: `RemoveTinyHoles(threshold)` drops exactly the holes whose absolute area is
`math::LT`-below the threshold (at the comparison tolerance) and keeps every other hole,
leaving the property and the solid untouched; concretely, after a merge with
`ignoreTinyHoles = true` and `tinyHolesArea = 1`, a hole of area 1/2 is removed and a
hole of area 5 survives `FilterOutTinyHoles`. -/
theorem removeTinyHoles_drops_exactly_small (tol thr : ℚ) (pd : PolygonData) :
    ((RemoveTinyHoles tol thr pd).holes =
      pd.holes.filter (fun h => !(mathLT (polyAreaI h) thr tol))) ∧
    (RemoveTinyHoles tol thr pd).property = pd.property ∧
    (RemoveTinyHoles tol thr pd).solid = pd.solid ∧
    (∀ h ∈ pd.holes,
      (h ∈ (RemoveTinyHoles tol thr pd).holes ↔ ¬(thr - polyAreaI h > tol))) ∧
    FilterOutTinyHoles epsF { ignoreTinyHoles := true, tinyHolesArea := 1 }
        [⟨1, [(0, 0), (10, 0), (10, 10), (0, 10)],
          [[(0, 0), (1, 0), (0, 1)], [(0, 0), (5, 0), (5, 1), (0, 1)]]⟩] =
      [⟨1, [(0, 0), (10, 0), (10, 10), (0, 10)], [[(0, 0), (5, 0), (5, 1), (0, 1)]]⟩] := by
  refine ⟨rfl, rfl, rfl, ?_, ?_⟩
  · intro h hmem
    simp [RemoveTinyHoles, List.mem_filter, hmem, mathLT]
  · unfold FilterOutTinyHoles RemoveTinyHoles
    norm_num [isPositive, mathLT, polyAreaI, shoelace2, epsF, List.filter]

/-- Witness for C6 at a concrete polygon: the area-1/2 triangular hole is dropped and the
area-5 rectangular hole is kept at threshold 1 and the default double tolerance. -/
theorem removeTinyHoles_drops_exactly_small_witness :
    ([(0, 0), (5, 0), (5, 1), (0, 1)] ∈
      (RemoveTinyHoles epsF 1
        ⟨1, [(0, 0), (10, 0), (10, 10), (0, 10)],
          [[(0, 0), (1, 0), (0, 1)], [(0, 0), (5, 0), (5, 1), (0, 1)]]⟩).holes) ∧
    ¬([(0, 0), (1, 0), (0, 1)] ∈
      (RemoveTinyHoles epsF 1
        ⟨1, [(0, 0), (10, 0), (10, 10), (0, 10)],
          [[(0, 0), (1, 0), (0, 1)], [(0, 0), (5, 0), (5, 1), (0, 1)]]⟩).holes) := by
  have h5 := (removeTinyHoles_drops_exactly_small epsF 1
    ⟨1, [(0, 0), (10, 0), (10, 10), (0, 10)],
      [[(0, 0), (1, 0), (0, 1)], [(0, 0), (5, 0), (5, 1), (0, 1)]]⟩).2.2.2.1
    [(0, 0), (5, 0), (5, 1), (0, 1)] (by decide)
  have h1 := (removeTinyHoles_drops_exactly_small epsF 1
    ⟨1, [(0, 0), (10, 0), (10, 10), (0, 10)],
      [[(0, 0), (1, 0), (0, 1)], [(0, 0), (5, 0), (5, 1), (0, 1)]]⟩).2.2.2.1
    [(0, 0), (1, 0), (0, 1)] (by decide)
  constructor
  · exact h5.mpr (by norm_num [polyAreaI, shoelace2, epsF])
  · intro hmem
    exact (h1.mp hmem) (by norm_num [polyAreaI, shoelace2, epsF])

/-- C9: on a polygon list with at most one element `MergePolygons` returns immediately:
the list, the property map and the conflict-record list are unchanged, and nothing is
handed to the boolean primitive (so no property is resolved and no conflict can be
recorded), for every possible primitive. -/
theorem mergePolygons_small_list_frame (cpd : Bool)
    (prim : List MergeInsert → List (List ℕ × List (List PtI)))
    (st : MergerState) (polygons : List PolygonData) (h : polygons.length ≤ 1) :
    MergePolygons cpd prim st polygons = (st, polygons, []) := by
  unfold MergePolygons
  simp [h]

/-- Witness for C9: a singleton polygon list passes through `MergePolygons` untouched,
with a nonempty property map and conflict list left intact and no primitive input. -/
theorem mergePolygons_small_list_frame_witness :
    MergePolygons true (fun _ => [([5], [[(0, 0)]])]) ⟨[(7, 8)], [([3, 4], [])]⟩
        [⟨1, [(0, 0), (1, 0), (0, 1)], []⟩] =
      (⟨[(7, 8)], [([3, 4], [])]⟩, [⟨1, [(0, 0), (1, 0), (0, 1)], []⟩], []) :=
  mergePolygons_small_list_frame true (fun _ => [([5], [[(0, 0)]])])
    ⟨[(7, 8)], [([3, 4], [])]⟩ [⟨1, [(0, 0), (1, 0), (0, 1)], []⟩] (by decide)

/-- Counterexample to C5 as stated: `AddObject` with a 2-point polygon (fewer than three
points after normalization) reports no failure and retains the offending geometry — the
record is appended to `m_datas`. -/
theorem addObject_degenerate_retained_cex :
    ([((0 : ℤ), (0 : ℤ)), (1, 0)].length < 3) ∧
    (AddObject ⟨none, []⟩ 1 [((0 : ℤ), (0 : ℤ)), (1, 0)]).1.datas ≠ [] := by
  constructor
  · decide
  · intro h
    exact absurd (congrArg List.length h) (by decide)

/-- C5 amended: `AddObject` performs no validation at all — every polygon, whatever its
point count, is normalized, appended to `m_datas` and returned; no failure channel
exists. -/
theorem addObject_always_retains (st : AddState) (p : ℕ) (poly : List PtI) :
    (AddObject st p poly).1.datas = st.datas ++ [Normalize ⟨p, poly, []⟩] ∧
    (AddObject st p poly).2 = Normalize ⟨p, poly, []⟩ :=
  ⟨rfl, rfl⟩

theorem amLookup_append {P : Type} [DecidableEq P] (m₁ m₂ : List (P × ℕ)) (k : P) :
    amLookup (m₁ ++ m₂) k =
      match amLookup m₁ k with
      | some v => some v
      | none => amLookup m₂ k := by
  induction m₁ with
  | nil => simp [amLookup]
  | cons e m ih => by_cases h : e.1 = k <;> simp [amLookup, h, ih]

theorem amLookup_amInsert {P : Type} [DecidableEq P] (m : List (P × ℕ)) (k : P) (v : ℕ)
    (k' : P) :
    amLookup (amInsert m k v) k' =
      if k' = k then some ((amLookup m k).getD v) else amLookup m k' := by
  unfold amInsert
  cases h : amLookup m k with
  | some q =>
    by_cases hk : k' = k
    · subst hk; simp [h]
    · simp [h, hk]
  | none =>
    by_cases hk : k' = k
    · subst hk; simp [h, amLookup_append, amLookup]
    · rw [if_neg hk]
      simp only [h, Option.isSome_none, Bool.false_eq_true, if_false, amLookup_append]
      cases hx : amLookup m k' with
      | some q => simp
      | none => simp [amLookup]; exact fun hc => hk hc.symm

theorem pmLookup_pmInsert (m : List (ℕ × ℕ)) (k v k' : ℕ) :
    pmLookup (pmInsert m k v) k' =
      if k' = k then some ((pmLookup m k).getD v) else pmLookup m k' :=
  amLookup_amInsert m k v k'

theorem pm_foldl_preserve (p0 : ℕ) (l : List ℕ) (m : List (ℕ × ℕ)) (pi q : ℕ)
    (h : pmLookup m pi = some q) :
    pmLookup (l.foldl (fun acc x => pmInsert acc x p0) m) pi = some q := by
  induction l generalizing m with
  | nil => simpa using h
  | cons x xs ih =>
    simp only [List.foldl_cons]
    apply ih
    rw [pmLookup_pmInsert]
    by_cases hx : pi = x
    · subst hx; simp [h]
    · simp [hx, h]

theorem pm_foldl_insert (p0 : ℕ) (l : List ℕ) (m : List (ℕ × ℕ)) (pi : ℕ) (h : pi ∈ l) :
    pmLookup (l.foldl (fun acc x => pmInsert acc x p0) m) pi =
      some ((pmLookup m pi).getD p0) := by
  induction l generalizing m with
  | nil => cases h
  | cons x xs ih =>
    simp only [List.foldl_cons]
    by_cases hx : pi = x
    · subst hx
      apply pm_foldl_preserve
      rw [pmLookup_pmInsert]
      simp
    · have hmem : pi ∈ xs := by
        rcases List.mem_cons.mp h with h1 | h2
        · exact absurd h1 hx
        · exact h2
      rw [ih (pmInsert m x p0) hmem, pmLookup_pmInsert, if_neg hx]

/-- The property tag of a reconstructed polygon record is the tag it was built with. -/
theorem makePolygonData_property (o : List PtI) (p : ℕ) :
    (makePolygonData o p).property = p := rfl

/-- C1: in `MergePolygons`, for every merge result whose property set `S` (in its
iteration order, head first) has more than one member, when `checkPropertyDiff` is false
the first property `p0` of `S` is chosen, every other `pi ∈ S` is inserted into the
property map as `m[pi] := p0` (an `unordered_map::insert`, so a fresh key maps to `p0`
and every such key is bound afterwards), one polygon record per result polyline is
emitted tagged `p0`, and no conflict is recorded; concretely, two overlapping squares
with properties 1 and 2 yield one union polygon with property 1 and the map entry
`2 → 1`. -/
theorem mergePolygons_property_collapse (st : MergerState) (S : List ℕ)
    (outs : List (List PtI)) (h : 1 < S.length) :
    ((processResult false st S outs).1.propertyMap =
      S.tail.foldl (fun m pi => pmInsert m pi (S.headD 0)) st.propertyMap) ∧
    (∀ pi ∈ S.tail, (pmLookup (processResult false st S outs).1.propertyMap pi).isSome) ∧
    (∀ pi ∈ S.tail, pmLookup st.propertyMap pi = none →
      pmLookup (processResult false st S outs).1.propertyMap pi = some (S.headD 0)) ∧
    ((processResult false st S outs).1.propDiffAreas = st.propDiffAreas) ∧
    ((processResult false st S outs).2 =
      outs.map (fun o => makePolygonData o (S.headD 0))) ∧
    (∀ pd ∈ (processResult false st S outs).2, pd.property = S.headD 0) ∧
    (MergePolygons false
        (fun _ => [([1, 2],
          [[(0, 0), (2, 0), (2, 1), (3, 1), (3, 3), (1, 3), (1, 2), (0, 2), (0, 0)]])])
        ⟨[], []⟩
        [⟨1, [(0, 0), (2, 0), (2, 2), (0, 2)], []⟩,
         ⟨2, [(1, 1), (3, 1), (3, 3), (1, 3)], []⟩] =
      (⟨[(2, 1)], []⟩,
       [makePolygonData
         [(0, 0), (2, 0), (2, 1), (3, 1), (3, 3), (1, 3), (1, 2), (0, 2), (0, 0)] 1],
       [⟨[(0, 0), (2, 0), (2, 2), (0, 2)], 1, false⟩,
        ⟨[(1, 1), (3, 1), (3, 3), (1, 3)], 2, false⟩])) := by
  have hres : processResult false st S outs =
      ({ st with propertyMap :=
          S.tail.foldl (fun m pi => pmInsert m pi (S.headD 0)) st.propertyMap },
        outs.map (fun o => makePolygonData o (S.headD 0))) := by
    unfold processResult
    simp [h]
  refine ⟨by rw [hres], ?_, ?_, by rw [hres], by rw [hres], ?_, by decide⟩
  · intro pi hpi
    rw [hres]
    simp only
    rw [pm_foldl_insert (S.headD 0) S.tail st.propertyMap pi hpi]
    rfl
  · intro pi hpi hnone
    rw [hres]
    simp only
    rw [pm_foldl_insert (S.headD 0) S.tail st.propertyMap pi hpi, hnone]
    rfl
  · intro pd hpd
    rw [hres] at hpd
    simp only [List.mem_map] at hpd
    obtain ⟨o, _, rfl⟩ := hpd
    rfl

/-- Witness for C1: with an empty property map and `S = {1, 2}`, property 2 is redirected
to 1 after the collapse. -/
theorem mergePolygons_property_collapse_witness :
    pmLookup (processResult false ⟨[], []⟩ [1, 2]
      [[(0, 0), (2, 0), (2, 1), (3, 1), (3, 3), (1, 3), (1, 2), (0, 2), (0, 0)]]).1.propertyMap
      2 = some 1 :=
  (mergePolygons_property_collapse ⟨[], []⟩ [1, 2]
    [[(0, 0), (2, 0), (2, 1), (3, 1), (3, 3), (1, 3), (1, 2), (0, 2), (0, 0)]]
    (by decide)).2.2.1 2 (by decide) (by decide)

/-- C2: in `MergePolygons`, for every merge result whose property set `S` has more than
one member, when `checkPropertyDiff` is true the pair `(S, polylines)` is appended to the
conflict-record list and no polygon record is emitted for that result, while
single-property results are still emitted; concretely, two overlapping squares with
properties 1 and 2 yield the two crescents with their original properties plus one
conflict record with property set `{1, 2}`. -/
theorem mergePolygons_conflict_records (st : MergerState) (S : List ℕ)
    (outs : List (List PtI)) :
    (1 < S.length →
      processResult true st S outs =
        ({ st with propDiffAreas := st.propDiffAreas ++ [(S, outs)] }, [])) ∧
    (S.length = 1 → ∀ cpd,
      processResult cpd st S outs =
        (st, outs.map (fun o => makePolygonData o (S.headD 0)))) ∧
    (MergePolygons true
        (fun _ => [([1], [[(0, 0), (2, 0), (2, 1), (1, 1), (1, 2), (0, 2), (0, 0)]]),
                   ([1, 2], [[(1, 1), (2, 1), (2, 2), (1, 2), (1, 1)]]),
                   ([2], [[(2, 1), (3, 1), (3, 3), (1, 3), (1, 2), (2, 2), (2, 1)]])])
        ⟨[], []⟩
        [⟨1, [(0, 0), (2, 0), (2, 2), (0, 2)], []⟩,
         ⟨2, [(1, 1), (3, 1), (3, 3), (1, 3)], []⟩] =
      (⟨[], [([1, 2], [[(1, 1), (2, 1), (2, 2), (1, 2), (1, 1)]])]⟩,
       [makePolygonData [(0, 0), (2, 0), (2, 1), (1, 1), (1, 2), (0, 2), (0, 0)] 1,
        makePolygonData [(2, 1), (3, 1), (3, 3), (1, 3), (1, 2), (2, 2), (2, 1)] 2],
       [⟨[(0, 0), (2, 0), (2, 2), (0, 2)], 1, false⟩,
        ⟨[(1, 1), (3, 1), (3, 3), (1, 3)], 2, false⟩])) := by
  refine ⟨?_, ?_, by decide⟩
  · intro h
    unfold processResult
    simp [h]
  · intro h cpd
    have h1 : ¬ 1 < S.length := by omega
    unfold processResult
    simp [h1]

/-- Witness for C2: a two-property result with `checkPropertyDiff = true` is appended to
the conflict list and emits nothing. -/
theorem mergePolygons_conflict_records_witness :
    processResult true ⟨[], []⟩ [1, 2] [[(1, 1), (2, 1), (2, 2), (1, 2), (1, 1)]] =
      (⟨[], [([1, 2], [[(1, 1), (2, 1), (2, 2), (1, 2), (1, 1)]])]⟩, []) :=
  (mergePolygons_conflict_records ⟨[], []⟩ [1, 2]
    [[(1, 1), (2, 1), (2, 2), (1, 2), (1, 1)]]).1 (by decide)

theorem getD_setD_ne (a : Array PtNode) (i j : ℕ) (v : PtNode) (h : i ≠ j) :
    (a.setD i v).getD j default = a.getD j default := by
  by_cases hi : i < a.size
  · by_cases hj : j < a.size
    · simp [Array.setD, Array.getD, hi, hj, Array.get_eq_getElem,
        Array.get_set_ne a ⟨i, hi⟩ v hj h]
    · simp [Array.setD, Array.getD, hi, hj]
  · simp [Array.setD, hi]

theorem getD_setD_self (a : Array PtNode) (j : ℕ) (v : PtNode) (h : j < a.size) :
    (a.setD j v).getD j default = v := by
  simp [Array.setD, Array.getD, h, Array.get_eq_getElem]

theorem mpdStep_invariant {P : Type} [DecidableEq P] [Inhabited P]
    (accept : List P → Bool) (arr : Array P) (i : ℕ) (sta stt : MpdState P)
    (h1 : sta.nodeList = stt.nodeList) (h2 : sta.ptMap = stt.ptMap)
    (h3 : sta.holes = stt.holes.filter accept) :
    (mpdStep accept arr sta i).nodeList = (mpdStep (fun _ => true) arr stt i).nodeList ∧
    (mpdStep accept arr sta i).ptMap = (mpdStep (fun _ => true) arr stt i).ptMap ∧
    (mpdStep accept arr sta i).holes =
      ((mpdStep (fun _ => true) arr stt i).holes).filter accept := by
  unfold mpdStep
  rw [h1, h2]
  dsimp only
  cases hl : amLookup stt.ptMap (arr.getD i default) with
  | none => exact ⟨rfl, rfl, h3⟩
  | some prev =>
    refine ⟨rfl, rfl, ?_⟩
    dsimp only
    by_cases ha : accept (collectRing arr (setNext stt.nodeList i prev) prev arr.size prev)
    · simp [ha, h3, List.filter_append, List.filter_cons]
    · simp [ha, h3, List.filter_append, List.filter_cons]

theorem mpd_fold_filter {P : Type} [DecidableEq P] [Inhabited P]
    (accept : List P → Bool) (arr : Array P) (l : List ℕ) :
    ∀ (sta stt : MpdState P), sta.nodeList = stt.nodeList → sta.ptMap = stt.ptMap →
      sta.holes = stt.holes.filter accept →
      ((l.foldl (mpdStep accept arr) sta).holes =
        ((l.foldl (mpdStep (fun _ => true) arr) stt).holes).filter accept) := by
  induction l with
  | nil => intro sta stt _ _ h3; exact h3
  | cons i is ih =>
    intro sta stt h1 h2 h3
    simp only [List.foldl_cons]
    obtain ⟨g1, g2, g3⟩ := mpdStep_invariant accept arr i sta stt h1 h2 h3
    exact ih _ _ g1 g2 g3

theorem makePolygonDataCore_holes_filter {P : Type} [DecidableEq P] [Inhabited P]
    (accept : List P → Bool) (inp : List P) :
    (makePolygonDataCore accept inp).1 =
      ((makePolygonDataCore (fun _ => true) inp).1).filter accept := by
  unfold makePolygonDataCore
  exact mpd_fold_filter accept _ _ _ _ rfl rfl rfl

/-- C3: in the hole reconstructor `makePolygonData`, the emitted hole list is exactly the
list of spliced-out candidate rings that pass the acceptance test, a candidate is
rejected precisely when its bounding box is degenerate (integer coordinates: x-extent
`≤ 1` or y-extent `≤ 1`; floating coordinates: box area `≤ 0` under the comparison
tolerance), and a splice at two duplicate consecutive points — the looked-up previous
index being the linked-list predecessor of the current index — yields a one-point ring
that is always rejected, leaving the hole list unchanged. -/
theorem makePolygonData_hole_degeneracy :
    (∀ (inp : List PtI) (prop : ℕ),
      (makePolygonData inp prop).holes = (mpdCandidates inp).filter acceptHoleI) ∧
    (∀ ring : List PtI,
      acceptHoleI ring = false ↔
        ((extent ring).Length ≤ 1 ∨ (extent ring).Width ≤ 1)) ∧
    (∀ (tol : ℚ) (ring : List PtF),
      acceptHoleF tol ring = false ↔ Box.Area (extent ring) ≤ tol) ∧
    (∀ (st : MpdState PtI) (arr : Array PtI) (i prev : ℕ),
      amLookup st.ptMap (arr.getD i default) = some prev →
      (st.nodeList.getD prev default).next = i →
      prev ≠ i → i < st.nodeList.size → 2 ≤ arr.size →
      collectRing arr (setNext st.nodeList i prev) prev arr.size prev =
        [arr.getD prev default] ∧
      (mpdStep acceptHoleI arr st i).holes = st.holes) := by
  refine ⟨?_, ?_, ?_, ?_⟩
  · intro inp prop
    exact makePolygonDataCore_holes_filter acceptHoleI inp
  · intro ring
    simp only [acceptHoleI, Bool.and_eq_false_iff, decide_eq_false_iff_not, not_lt]
  · intro tol ring
    simp only [acceptHoleF, mathGT, sub_zero, decide_eq_false_iff_not, not_lt]
  · intro st arr i prev hl hadj hne hi hsz
    have hprev : ((setNext st.nodeList i prev).getD prev default).next = i := by
      rw [setNext, getD_setD_ne st.nodeList i prev _ (Ne.symm hne)]
      exact hadj
    have hcurr : ((setNext st.nodeList i prev).getD i default).next = prev := by
      rw [setNext, getD_setD_self st.nodeList i _ hi]
    obtain ⟨n, hn⟩ : ∃ n, arr.size = n + 2 := ⟨arr.size - 2, by omega⟩
    have hring : collectRing arr (setNext st.nodeList i prev) prev arr.size prev =
        [arr.getD prev default] := by
      rw [hn]
      rw [collectRing, hprev, if_neg hne, collectRing, hcurr, if_pos rfl]
    refine ⟨hring, ?_⟩
    unfold mpdStep
    dsimp only
    rw [hl]
    dsimp only
    have hrej : acceptHoleI [arr.getD prev default] = false := by
      simp [acceptHoleI, extent, Box.Length]
    rw [hring, hrej]
    simp

/-- Witness for C3: the splice step at the duplicate consecutive point `(2, 0)` of a
concrete polyline collects a one-point candidate and emits no hole. -/
theorem makePolygonData_hole_degeneracy_witness :
    (mpdStep acceptHoleI #[((0 : ℤ), (0 : ℤ)), (2, 0), (2, 0), (2, 2), (0, 2)]
      ⟨#[⟨4, 1⟩, ⟨0, 2⟩, ⟨1, 3⟩, ⟨2, 4⟩, ⟨3, 0⟩], [(((0 : ℤ), (0 : ℤ)), 0), ((2, 0), 1)], []⟩
      2).holes = [] :=
  (makePolygonData_hole_degeneracy.2.2.2
    ⟨#[⟨4, 1⟩, ⟨0, 2⟩, ⟨1, 3⟩, ⟨2, 4⟩, ⟨3, 0⟩], [(((0 : ℤ), (0 : ℤ)), 0), ((2, 0), 1)], []⟩
    #[((0 : ℤ), (0 : ℤ)), (2, 0), (2, 0), (2, 2), (0, 2)] 2 1
    (by decide) (by decide) (by decide) (by decide) (by decide)).2

theorem cleanLoop_reaches_fixpoint (simplify : List PtF → List PtF)
    (hdec : ∀ l, (simplify l).length ≤ l.length) :
    ∀ (fuel : ℕ) (inp out : List PtF), out.length + 1 ≤ fuel →
      (cleanLoop simplify fuel inp out = out ∧ out.length = inp.length) ∨
      (∃ i, cleanLoop simplify fuel inp out = simplify i ∧
        (simplify i).length = i.length) := by
  intro fuel
  induction fuel with
  | zero => intro inp out hf; omega
  | succ f ih =>
    intro inp out hf
    by_cases he : out.length = inp.length
    · left
      exact ⟨by rw [cleanLoop, if_pos he], he⟩
    · right
      rw [cleanLoop, if_neg he]
      by_cases hlt : (simplify out).length < out.length
      · rcases ih out (simplify out) (by omega) with ⟨hres, hlen⟩ | ⟨i, hres, hlen⟩
        · exact ⟨out, hres, by omega⟩
        · exact ⟨i, hres, hlen⟩
      · have heq : (simplify out).length = out.length := by
          have := hdec out
          omega
        cases f with
        | zero => exact ⟨out, by rw [cleanLoop], heq⟩
        | succ g => exact ⟨out, by rw [cleanLoop, if_pos heq], heq⟩

/-- C8: `CleanPolygon` with tolerance `d` repeatedly applies the simplification
primitive until the point count stops decreasing, and (whenever simplification never
grows its input) this loop terminates for every input — the fuelled loop exits at a
non-shrinking application; afterwards, if the squared first-to-last distance exceeds
`d * d` the trailing point is dropped; and whenever the processed result has fewer than
3 points the original polygon is returned unchanged. -/
theorem cleanPolygon_spec (simplify : List PtF → List PtF)
    (hdec : ∀ l, (simplify l).length ≤ l.length) (d : ℚ) (polygon : List PtF) :
    ((polygon = [] ∧ cleanLoop simplify (polygon.length + 1) [] polygon = polygon) ∨
     (∃ i, cleanLoop simplify (polygon.length + 1) [] polygon = simplify i ∧
        (simplify i).length = i.length)) ∧
    (∀ out, out = cleanLoop simplify (polygon.length + 1) [] polygon →
      (distSq (out.headD (0, 0)) (out.getLastD (0, 0)) > d * d →
        CleanPolygon simplify d polygon =
          (if 3 ≤ out.dropLast.length then out.dropLast else polygon)) ∧
      (¬(distSq (out.headD (0, 0)) (out.getLastD (0, 0)) > d * d) →
        CleanPolygon simplify d polygon = (if 3 ≤ out.length then out else polygon))) ∧
    (∀ out out2, out = cleanLoop simplify (polygon.length + 1) [] polygon →
      out2 = (if distSq (out.headD (0, 0)) (out.getLastD (0, 0)) > d * d
        then out.dropLast else out) →
      out2.length < 3 → CleanPolygon simplify d polygon = polygon) := by
  refine ⟨?_, ?_, ?_⟩
  · rcases cleanLoop_reaches_fixpoint simplify hdec (polygon.length + 1) [] polygon
        (by omega) with ⟨hres, hlen⟩ | h
    · left
      exact ⟨List.length_eq_zero.mp (by simpa using hlen), hres⟩
    · right
      exact h
  · intro out hout
    constructor
    · intro hfar
      unfold CleanPolygon
      rw [← hout]
      dsimp only
      rw [if_pos hfar]
    · intro hnear
      unfold CleanPolygon
      rw [← hout]
      dsimp only
      rw [if_neg hnear]
  · intro out out2 hout hout2 hlt
    unfold CleanPolygon
    rw [← hout]
    dsimp only
    rw [← hout2, if_neg (by omega)]

/-- Witness for C8 with the identity as the (never-growing) simplification primitive:
a 2-point polygon is far-spread (distance² = 1 > 0 = d²), loses its trailing point, ends
below 3 points and is therefore returned unchanged. -/
theorem cleanPolygon_spec_witness :
    CleanPolygon (fun l => l) 0 [(0, 0), (1, 0)] = [(0, 0), (1, 0)] := by
  refine (cleanPolygon_spec (fun l => l) (fun l => le_refl _) 0
    [(0, 0), (1, 0)]).2.2 [(0, 0), (1, 0)] [((0 : ℚ), (0 : ℚ))] rfl ?_ (by decide)
  norm_num [distSq]

theorem mergeRegionTrace_mk (i : ℕ) (objs : List PolygonData) (cs : List TaskNode) :
    mergeRegionTrace (.mk i objs cs) = (cs.map mergeRegionTrace).flatten ++ [i] := by
  rw [mergeRegionTrace]
  rw [List.attach_map_coe]

theorem scheduleSubTasks_mk (i : ℕ) (objs : List PolygonData) (cs : List TaskNode)
    (succ : ℕ) :
    scheduleSubTasks (.mk i objs cs) succ =
      (cs.map (fun c => (c.nid, succ) :: scheduleSubTasks c c.nid)).flatten := by
  rw [scheduleSubTasks]
  exact congrArg List.flatten
    (List.attach_map_coe cs (fun x => (x.nid, succ) :: scheduleSubTasks x x.nid))

theorem allNodes_mk (i : ℕ) (objs : List PolygonData) (cs : List TaskNode) :
    allNodes (.mk i objs cs) = .mk i objs cs :: (cs.map allNodes).flatten := by
  rw [allNodes]
  rw [List.attach_map_coe]

theorem flatten_map_decomp {α β : Type} (f : α → List β) (cs : List α) (c : α)
    (h : c ∈ cs) :
    ∃ l₁ l₂, (cs.map f).flatten = l₁ ++ f c ++ l₂ := by
  induction cs with
  | nil => cases h
  | cons d rest ih =>
    rcases List.mem_cons.mp h with h1 | h2
    · subst h1
      exact ⟨[], (rest.map f).flatten, by simp⟩
    · obtain ⟨l₁, l₂, hl⟩ := ih h2
      exact ⟨f d ++ l₁, l₂, by simp [hl]⟩

theorem scheduleSubTasks_edge_aux :
    ∀ (k : ℕ) (p : TaskNode), sizeOf p ≤ k → ∀ n ∈ allNodes p, ∀ c ∈ n.children,
      (c.nid, n.nid) ∈ scheduleSubTasks p p.nid := by
  intro k
  induction k with
  | zero =>
    intro p hp
    cases p with
    | mk i objs cs => simp at hp
  | succ k ih =>
    intro p hp n hn c hc
    cases p with
    | mk i objs cs =>
      rw [allNodes_mk] at hn
      rw [scheduleSubTasks_mk]
      rcases List.mem_cons.mp hn with h1 | h2
      · subst h1
        rw [List.mem_flatten]
        refine ⟨(c.nid, TaskNode.nid (.mk i objs cs)) ::
          scheduleSubTasks c c.nid, ?_, ?_⟩
        · exact List.mem_map_of_mem _ hc
        · exact List.mem_cons_self _ _
      · rw [List.mem_flatten] at h2
        obtain ⟨l, hl, hnl⟩ := h2
        rw [List.mem_map] at hl
        obtain ⟨c', hc', rfl⟩ := hl
        have hsz : sizeOf c' ≤ k := by
          have h1 := List.sizeOf_lt_of_mem hc'
          simp at hp
          omega
        have hedge := ih c' hsz n hnl c hc
        rw [List.mem_flatten]
        refine ⟨(c'.nid, TaskNode.nid (.mk i objs cs)) ::
          scheduleSubTasks c' c'.nid, ?_, ?_⟩
        · exact List.mem_map_of_mem _ hc'
        · exact List.mem_cons_of_mem _ hedge

/-- C7: for every node of the task tree, the node's own merge never begins before the
merges of all of its children have completed — in the sequential `MergeRegion` trace the
node's own event comes after the full trace of each child, and the parallel scheduler
adds a dependency edge `childTask ≺ parentTask` for every parent/child pair of the
tree. -/
theorem mergeRegion_children_before_parent :
    (∀ (n : TaskNode), ∀ c ∈ n.children,
      ∃ l₁ l₂, mergeRegionTrace n = l₁ ++ mergeRegionTrace c ++ l₂ ++ [n.nid]) ∧
    (∀ (t n : TaskNode), n ∈ allNodes t → ∀ c ∈ n.children,
      (c.nid, n.nid) ∈ scheduleTasks t) := by
  constructor
  · intro n c hc
    cases n with
    | mk i objs cs =>
      obtain ⟨l₁, l₂, hl⟩ := flatten_map_decomp mergeRegionTrace cs c hc
      refine ⟨l₁, l₂, ?_⟩
      rw [mergeRegionTrace_mk, hl]
      rfl
  · intro t n hn c hc
    exact scheduleSubTasks_edge_aux (sizeOf t) t (le_refl _) n hn c hc

/-- Witness for C7 on a concrete two-child tree: child 1 completes inside the prefix of
the root trace, and the scheduler emits the edge `1 ≺ 0`. -/
theorem mergeRegion_children_before_parent_witness :
    (∃ l₁ l₂, mergeRegionTrace (.mk 0 [] [.mk 1 [] [], .mk 2 [] []]) =
      l₁ ++ mergeRegionTrace (.mk 1 [] []) ++ l₂ ++
        [TaskNode.nid (.mk 0 [] [.mk 1 [] [], .mk 2 [] []])]) ∧
    ((1, 0) ∈ scheduleTasks (.mk 0 [] [.mk 1 [] [], .mk 2 [] []])) := by
  constructor
  · exact mergeRegion_children_before_parent.1 (.mk 0 [] [.mk 1 [] [], .mk 2 [] []])
      (.mk 1 [] []) (List.mem_cons_self _ _)
  · exact mergeRegion_children_before_parent.2 (.mk 0 [] [.mk 1 [] [], .mk 2 [] []])
      (.mk 0 [] [.mk 1 [] [], .mk 2 [] []]) (by rw [allNodes_mk]; exact List.mem_cons_self _ _)
      (.mk 1 [] []) (List.mem_cons_self _ _)

end PolygonMerge
